import Mathlib

/-!
Verification of the `self-belay` repository: a traversal cursor ("rope")
over a mutable tree-shaped structure (`src/lib.rs`), together with its
worked example, a binary-tree prune-or-increment walk (`src/tests.rs`).

The cursor of `lib.rs` stores two raw pointers, `anchor` and `lead`, into
one exclusively owned structure.  We embed it shallowly as a pure record
of two abstract positions.  The caller-supplied step functions of
`advance_simul` may mutate the structure; that mutation is modelled by
threading an explicit state component `σ` through the step function.

The worked example of `tests.rs` is embedded over positions that are
paths (lists of directions) from the root of the tree; panicking
operations (`unwrap`, the `panic!("unreachable")` arm) and the `while`
loop are modelled in `Except`, with a fuel parameter for the loop.
-/

namespace SelfBelay

/-- `Direction` from `tests.rs`: `enum Direction { Left, Right }`. -/
inductive Direction : Type where
  | Left
  | Right
deriving DecidableEq, Repr

/-- A position inside the walked structure, identified by the path of
directions from the root.  In `lib.rs` positions are raw pointers
(`*mut T`); paths are their aliasing-free counterpart. -/
abbrev Path : Type := List Direction

/-- `Rope<'a, T>` from `lib.rs`: the cursor, holding the checkpoint
position `anchor` and the current position `lead`.  The element type is
replaced by an abstract position type `α`. -/
structure Rope (α : Type) : Type where
  anchor : α
  lead : α
deriving DecidableEq, Repr

/-- `Simul<'a, T>` from `lib.rs`: the result of a combined step, carrying
the next `lead` position, tagged with whether `anchor` should catch up. -/
inductive Simul (α : Type) : Type where
  | Advance (next : α)
  | Hold (next : α)
deriving DecidableEq, Repr

/-- `Rope::new` from `lib.rs`: `anchor = lead = root`. -/
def Rope.new {α : Type} (root : α) : Rope α :=
  { anchor := root, lead := root }

/-- The state update performed by `Rope::advance_simul` on its two
pointer fields, given the `Simul` value the step function returned:
`Hold(next)` sets only `lead := next`; `Advance(next)` sets
`anchor := old_lead` and `lead := next`.  `r` is the pre-step cursor, so
`r.lead` is the `old_lead` captured before the closure call. -/
def Rope.applySimul {α : Type} (r : Rope α) : Simul α → Rope α
  | .Hold next => { r with lead := next }
  | .Advance next => { anchor := r.lead, lead := next }

/-- `Rope::advance_simul` from `lib.rs`.  The closure receives exclusive
access to the node at `lead`; here it receives the `lead` position and
the current structure state `s : σ` (modelling the mutation it may
perform through the reference) and returns the `Simul` decision together
with the updated structure state. -/
def Rope.advance_simul {α σ : Type} (r : Rope α) (s : σ)
    (f : α → σ → Simul α × σ) : Rope α × σ :=
  let p := f r.lead s
  (r.applySimul p.1, p.2)

/-- `Rope::advance_map` from `lib.rs`: the closure maps the node at
`lead` to some node reachable from it, which becomes the new `lead`;
`anchor` is untouched. -/
def Rope.advance_map {α σ : Type} (r : Rope α) (s : σ)
    (f : α → σ → α × σ) : Rope α × σ :=
  let p := f r.lead s
  ({ r with lead := p.1 }, p.2)

/-- `Rope::anchor` from `lib.rs` (the checkpoint method; named
`anchorOp` because the field projection already uses the name):
`self.anchor = self.lead`. -/
def Rope.anchorOp {α : Type} (r : Rope α) : Rope α :=
  { r with anchor := r.lead }

/-- `Rope::fall` from `lib.rs` (rewind): `self.lead = self.anchor`. -/
def Rope.fall {α : Type} (r : Rope α) : Rope α :=
  { r with lead := r.anchor }

/-- `Rope::into_anchor` from `lib.rs`: consume the cursor, recovering
the anchor position. -/
def Rope.into_anchor {α : Type} (r : Rope α) : α :=
  r.anchor

/-- `Rope::into_lead` from `lib.rs`: consume the cursor, recovering the
lead position. -/
def Rope.into_lead {α : Type} (r : Rope α) : α :=
  r.lead

/-- Tag of a `Simul` value. -/
def Simul.isAdvance {α : Type} : Simul α → Bool
  | .Advance _ => true
  | .Hold _ => false

/-- Run a finite sequence of `advance_simul` calls (one step function
per call) from a cursor state, threading the structure state. -/
def runSimul {α σ : Type} : Rope α → σ → List (α → σ → Simul α × σ) → Rope α × σ
  | r, s, [] => (r, s)
  | r, s, f :: fs =>
    let p := r.advance_simul s f
    runSimul p.1 p.2 fs

/-- Observer of the same run: for each step, the pre-step `lead`
position and whether the step function returned `Advance`. -/
def simulTrace {α σ : Type} : Rope α → σ → List (α → σ → Simul α × σ) → List (α × Bool)
  | _, _, [] => []
  | r, s, f :: fs =>
    let p := f r.lead s
    (r.lead, p.1.isAdvance) :: simulTrace (r.applySimul p.1) p.2 fs

/-- `SimpleTree` from `tests.rs`: a binary tree node with a `u8` value
and optional children.  The `u8` value is embedded as a `Nat`; the one
arithmetic operation performed on it (`value += 1`) is embedded as
`(value + 1) % 256`. -/
inductive SimpleTree : Type where
  | mk (value : Nat) (left : Option SimpleTree) (right : Option SimpleTree)

/-- Field `value` of `SimpleTree`. -/
def SimpleTree.value : SimpleTree → Nat
  | .mk v _ _ => v

/-- Field `left` of `SimpleTree`. -/
def SimpleTree.left : SimpleTree → Option SimpleTree
  | .mk _ l _ => l

/-- Field `right` of `SimpleTree`. -/
def SimpleTree.right : SimpleTree → Option SimpleTree
  | .mk _ _ r => r

/-- Functional update of the `value` field. -/
def SimpleTree.setValue : SimpleTree → Nat → SimpleTree
  | .mk _ l r, v => .mk v l r

/-- Functional update of the `left` field (`self.left = x`). -/
def SimpleTree.setLeft : SimpleTree → Option SimpleTree → SimpleTree
  | .mk v _ r, l => .mk v l r

/-- Functional update of the `right` field (`self.right = x`). -/
def SimpleTree.setRight : SimpleTree → Option SimpleTree → SimpleTree
  | .mk v l _, r => .mk v l r

/-- The child selected by a direction, as in the `match dir` blocks of
`tests.rs` (`node.left` for `Left`, `node.right` for `Right`). -/
def SimpleTree.child (t : SimpleTree) : Direction → Option SimpleTree
  | .Left => t.left
  | .Right => t.right

/-- Functional update of the child selected by a direction. -/
def SimpleTree.setChild (t : SimpleTree) : Direction → Option SimpleTree → SimpleTree
  | .Left, c => t.setLeft c
  | .Right, c => t.setRight c

/-- Number of nodes of a tree; used as the fuel bound for the
descend-to-resolution loop. -/
def SimpleTree.size : SimpleTree → Nat
  | .mk _ l r =>
    1 + (match l with | none => 0 | some lt => lt.size)
      + (match r with | none => 0 | some rt => rt.size)

/-- The node denoted by a path, following children from the root;
`none` when the path leaves the tree.  This is the reading of the raw
`lead`/`anchor` pointers of `lib.rs` in the path model. -/
def SimpleTree.nodeAt : SimpleTree → Path → Option SimpleTree
  | t, [] => some t
  | t, d :: ds => (t.child d).bind (fun c => c.nodeAt ds)

/-- Apply a function to the node denoted by a path, rebuilding the
spine; `none` when the path leaves the tree.  This is the reading, in
the path model, of an in-place mutation performed through a reference
to that node. -/
def SimpleTree.modifyAt : SimpleTree → Path → (SimpleTree → SimpleTree) → Option SimpleTree
  | t, [], f => some (f t)
  | t, d :: ds, f => (t.child d).bind (fun c => (c.modifyAt ds f).map (fun c2 => t.setChild d c2))

/-- Replace the node denoted by a path. -/
def SimpleTree.replaceAt (t : SimpleTree) (p : Path) (n : SimpleTree) : Option SimpleTree :=
  t.modifyAt p (fun _ => n)

/-- A path is walkable from a tree when each step's child exists. -/
def SimpleTree.pathValid : SimpleTree → List Direction → Bool
  | _, [] => true
  | t, d :: ds =>
    match t.child d with
    | none => false
    | some c => c.pathValid ds

/-- `directions_from_bits` from `tests.rs`: read `depth` low-order bits
of `bits`, least-significant first, `0 ↦ Left`, `1 ↦ Right`.  The Rust
iterator is embedded as the list of the values it yields. -/
def directions_from_bits (bits : Nat) (depth : Nat) : List Direction :=
  match depth with
  | 0 => []
  | dep + 1 =>
    (if bits % 2 == 0 then Direction.Left else Direction.Right)
      :: directions_from_bits (bits / 2) dep

/-- Failure modes of the embedded algorithms.  `unwrapNone` models a
panic of `Option::unwrap` (or, in the path model, dereferencing a path
that leaves the tree); `badArm` models the `panic!("unreachable")` /
`unreachable!()` arms; `noFuel` models non-termination of the `while`
loop, which is embedded with a fuel parameter. -/
inductive Err : Type where
  | unwrapNone
  | badArm
  | noFuel
deriving DecidableEq, Repr

/-- Unwrap an `Option` into `Except`, failing with the given error. -/
def getOrErr {β : Type} : Option β → Err → Except Err β
  | some b, _ => .ok b
  | none, e => .error e

/-- One iteration of the walk phase of `SimpleTree::prune_or_increment`
(`tests.rs`): the body of the `for dir in it` loop, i.e. one
`rope.advance_simul(..)` call with the closure of lines 37-49.  The
closure's captured variable `prune_direction` is threaded explicitly as
`pd`.  The closure reads the node at `lead`, unwraps the child in the
requested direction, and decides between `Advance` and `Hold`; the
pointer bookkeeping is `Rope.applySimul` exactly as in
`Rope::advance_simul`. -/
def walkStep (t : SimpleTree) (dir : Direction) (r : Rope Path) (pd : Option Direction) :
    Except Err (Rope Path × Option Direction) := do
  let node ← getOrErr (t.nodeAt r.lead) .unwrapNone
  let potential_prune_point := node.left.isSome && node.right.isSome
  let child ← getOrErr (node.child dir) .unwrapNone
  if potential_prune_point && (child.left.isNone || child.right.isNone) then
    .ok (r.applySimul (.Advance (r.lead ++ [dir])), some dir)
  else
    .ok (r.applySimul (.Hold (r.lead ++ [dir])), pd)

/-- The walk phase of `SimpleTree::prune_or_increment`: the whole
`for dir in it` loop over the remaining directions. -/
def walkPhase (t : SimpleTree) : List Direction → Rope Path → Option Direction →
    Except Err (Rope Path × Option Direction)
  | [], r, pd => .ok (r, pd)
  | d :: ds, r, pd => do
    let s ← walkStep t d r pd
    walkPhase t ds s.1 s.2

/-- One iteration of the descend-to-resolution loop of
`SimpleTree::prune_or_increment` (`tests.rs` lines 53-74): the body of
`while advance { rope.advance_map(..) }`.  Returns the updated tree,
the updated `lead`, the updated `advance` flag and the updated `prune`
flag.  `advance_map` never touches `anchor` (see `Rope.advance_map`),
so the cursor is represented by `lead` alone here.  The first `match`
either stops (no children: leaf reached, keep `prune`; two children:
increment the node's value and clear `prune`) or falls through to the
second `match`, which moves into the only child — its final arm is the
`panic!("unreachable")` arm, embedded as `Err.badArm`. -/
def descendIter (t : SimpleTree) (lead : Path) (prune : Bool) :
    Except Err (SimpleTree × Path × Bool × Bool) := do
  let node ← getOrErr (t.nodeAt lead) .unwrapNone
  match node.left, node.right with
  | none, none => .ok (t, lead, false, prune)
  | some _, some _ => do
    let t2 ← getOrErr (t.modifyAt lead (fun n => n.setValue ((n.value + 1) % 256))) .unwrapNone
    .ok (t2, lead, false, false)
  | _, _ =>
    match node.left, node.right with
    | some _, none => .ok (t, lead ++ [Direction.Left], true, prune)
    | none, some _ => .ok (t, lead ++ [Direction.Right], true, prune)
    | _, _ => .error .badArm

/-- The descend-to-resolution loop of `SimpleTree::prune_or_increment`,
with a fuel parameter bounding the number of iterations; running out of
fuel models non-termination.  Returns the tree, the final `lead` and
the final `prune` flag. -/
def descendLoopFuel : Nat → SimpleTree → Path → Bool → Except Err (SimpleTree × Path × Bool)
  | 0, _, _, _ => .error .noFuel
  | fuel + 1, t, lead, prune => do
    let s ← descendIter t lead prune
    if s.2.2.1 then descendLoopFuel fuel s.1 s.2.1 s.2.2.2
    else .ok (s.1, s.2.1, s.2.2.2)

/-- `SimpleTree::prune_or_increment` from `tests.rs`: construct the
cursor on the root (path `[]`), run the walk phase over the directions
with `prune_direction` initially `None`, run the descend-to-resolution
loop with `prune` initially `true` (fuel `t.size + 1` suffices, see
`descendLoopFuel_ok`), then commit: if a prune is warranted and a prune
direction was recorded, consume the cursor into its anchor and clear
that child. -/
def prune_or_increment (t : SimpleTree) (dirs : List Direction) : Except Err SimpleTree := do
  let rope : Rope Path := Rope.new []
  let w ← walkPhase t dirs rope none
  let r := w.1
  let prune_direction := w.2
  let d ← descendLoopFuel (t.size + 1) t r.lead true
  let t2 := d.1
  let prune := d.2.2
  match prune, prune_direction with
  | true, some Direction.Left =>
    getOrErr (t2.modifyAt r.into_anchor (fun n => n.setLeft none)) .unwrapNone
  | true, some Direction.Right =>
    getOrErr (t2.modifyAt r.into_anchor (fun n => n.setRight none)) .unwrapNone
  | _, _ => .ok t2

/-- `SimpleTree::needs_prune` from `tests.rs`: the reference descend
loop, written over plain references.  Its in-place mutation through a
reborrowed reference is embedded by returning the rebuilt subtree
together with the boolean result; the `unreachable!()` arm is
`Err.badArm`. -/
def needs_prune (node : SimpleTree) : Except Err (SimpleTree × Bool) :=
  match node.left, node.right with
  | none, none => .ok (node, true)
  | some _, some _ => .ok (node.setValue ((node.value + 1) % 256), false)
  | _, _ =>
    match hl : node.left, hr : node.right with
    | some l, none => (needs_prune l).map (fun p => ((node.setLeft (some p.1)), p.2))
    | none, some r => (needs_prune r).map (fun p => ((node.setRight (some p.1)), p.2))
    | _, _ => .error .badArm
termination_by node.size
decreasing_by
  · cases node with
    | mk v ol or =>
      simp only [SimpleTree.left] at hl
      subst hl
      cases or <;> simp [SimpleTree.size] <;> omega
  · cases node with
    | mk v ol or =>
      simp only [SimpleTree.right] at hr
      subst hr
      cases ol <;> simp [SimpleTree.size] <;> omega

/-- `SimpleTree::prune_or_increment_safe_impl` from `tests.rs`: the
straightforward recursive post-order formulation.  Returns the rebuilt
tree together with the "needs prune" flag propagated to the caller. -/
def prune_or_increment_safe_impl : SimpleTree → List Direction → Except Err (SimpleTree × Bool)
  | t, [] => needs_prune t
  | t, dir :: rest => do
    let child ← getOrErr (t.child dir) .unwrapNone
    let p ← prune_or_increment_safe_impl child rest
    if p.2 then
      if t.left.isSome && t.right.isSome then
        match dir with
        | .Left => .ok (t.setLeft none, false)
        | .Right => .ok (t.setRight none, false)
      else
        .ok (t.setChild dir p.1, true)
    else
      .ok (t.setChild dir p.1, false)

/-- `SimpleTree::prune_or_increment_safe` from `tests.rs`: run the
recursive formulation and discard the flag. -/
def prune_or_increment_safe (t : SimpleTree) (dirs : List Direction) : Except Err SimpleTree :=
  (prune_or_increment_safe_impl t dirs).map (fun p => p.1)

/-- The cursor pipeline of `prune_or_increment`, returning alongside
the final tree the flag "a prune is warranted but was not committed
inside this call" (`prune && prune_direction.isNone`).  This composite
is the induction-friendly form of `prune_or_increment`: projecting the
tree out of it gives `prune_or_increment` exactly (see
`prune_or_increment_eq_pair`), and its pair mirrors the contract of
`prune_or_increment_safe_impl`. -/
def por_pair (t : SimpleTree) (dirs : List Direction) : Except Err (SimpleTree × Bool) := do
  let w ← walkPhase t dirs (Rope.new []) none
  let d ← descendLoopFuel (t.size + 1) t w.1.lead true
  match d.2.2, w.2 with
  | true, some Direction.Left =>
    (getOrErr (d.1.modifyAt w.1.into_anchor (fun n => n.setLeft none)) .unwrapNone).map
      (fun t3 => (t3, false))
  | true, some Direction.Right =>
    (getOrErr (d.1.modifyAt w.1.into_anchor (fun n => n.setRight none)) .unwrapNone).map
      (fun t3 => (t3, false))
  | true, none => .ok (d.1, true)
  | false, _ => .ok (d.1, false)

/-- `empty_tree` from `tests.rs`. -/
def empty_tree (value : Nat) : SimpleTree :=
  .mk value none none

/-- `create_tree_example` from `tests.rs`. -/
def create_tree_example (final_branch : Bool) (final_value : Nat) : SimpleTree :=
  .mk 0
    (some (empty_tree 1))
    (some (.mk 1
      (some (.mk 2
        none
        (some (.mk 3
          none
          (some (.mk 4
            (some (if final_branch then
                .mk final_value (some (empty_tree 6)) (some (empty_tree 6))
              else
                empty_tree 5))
            none))))))
      none))

/-- `directions_example` from `tests.rs`: `directions_from_bits(0b1101, 5)`. -/
def directions_example : List Direction :=
  directions_from_bits 0b1101 5

/-! ## Basic lemmas about trees, paths and node access -/

theorem SimpleTree.child_size_lt (t c : SimpleTree) (d : Direction)
    (h : t.child d = some c) : c.size < t.size := by
  cases t with
  | mk v l r =>
    cases d with
    | Left =>
      simp only [SimpleTree.child, SimpleTree.left] at h
      subst h
      cases r <;> simp [SimpleTree.size] <;> omega
    | Right =>
      simp only [SimpleTree.child, SimpleTree.right] at h
      subst h
      cases l <;> simp [SimpleTree.size] <;> omega

theorem SimpleTree.nodeAt_size_le :
    ∀ (p : Path) (t n : SimpleTree), t.nodeAt p = some n → n.size ≤ t.size
  | [], t, n, h => by
    simp only [SimpleTree.nodeAt, Option.some_inj] at h
    exact h ▸ Nat.le_refl _
  | d :: ds, t, n, h => by
    simp only [SimpleTree.nodeAt, Option.bind_eq_some] at h
    obtain ⟨c, hc, hn⟩ := h
    exact Nat.le_trans (SimpleTree.nodeAt_size_le ds c n hn)
      (Nat.le_of_lt (SimpleTree.child_size_lt t c d hc))

theorem SimpleTree.nodeAt_append :
    ∀ (p q : Path) (t : SimpleTree),
      t.nodeAt (p ++ q) = (t.nodeAt p).bind (fun m => m.nodeAt q)
  | [], q, t => by simp [SimpleTree.nodeAt]
  | d :: p', q, t => by
    simp only [List.cons_append, SimpleTree.nodeAt]
    cases t.child d with
    | none => simp
    | some c => simp [SimpleTree.nodeAt_append p' q c]

theorem SimpleTree.child_setChild (t : SimpleTree) (d : Direction) (c : Option SimpleTree) :
    (t.setChild d c).child d = c := by
  cases t <;> cases d <;> rfl

theorem SimpleTree.setChild_setChild (t : SimpleTree) (d : Direction)
    (c c' : Option SimpleTree) : (t.setChild d c).setChild d c' = t.setChild d c' := by
  cases t <;> cases d <;> rfl

theorem SimpleTree.setChild_eq_self (t c : SimpleTree) (d : Direction)
    (h : t.child d = some c) : t.setChild d (some c) = t := by
  cases t with
  | mk v l r =>
    cases d with
    | Left =>
      simp only [SimpleTree.child, SimpleTree.left] at h
      simp [SimpleTree.setChild, SimpleTree.setLeft, h]
    | Right =>
      simp only [SimpleTree.child, SimpleTree.right] at h
      simp [SimpleTree.setChild, SimpleTree.setRight, h]

theorem SimpleTree.setLeft_setChild_left (t : SimpleTree) (c x : Option SimpleTree) :
    (t.setChild .Left c).setLeft x = t.setLeft x := by
  cases t <;> rfl

theorem SimpleTree.setRight_setChild_right (t : SimpleTree) (c x : Option SimpleTree) :
    (t.setChild .Right c).setRight x = t.setRight x := by
  cases t <;> rfl

theorem SimpleTree.modifyAt_isSome :
    ∀ (p : Path) (t n : SimpleTree) (f : SimpleTree → SimpleTree),
      t.nodeAt p = some n → ∃ t2, t.modifyAt p f = some t2
  | [], t, n, f, _ => ⟨f t, rfl⟩
  | d :: ds, t, n, f, h => by
    simp only [SimpleTree.nodeAt, Option.bind_eq_some] at h
    obtain ⟨c, hc, hn⟩ := h
    obtain ⟨c2, hc2⟩ := SimpleTree.modifyAt_isSome ds c n f hn
    exact ⟨t.setChild d c2, by simp [SimpleTree.modifyAt, hc, hc2]⟩

theorem SimpleTree.modifyAt_eq_replaceAt :
    ∀ (p : Path) (t n : SimpleTree) (f : SimpleTree → SimpleTree),
      t.nodeAt p = some n → t.modifyAt p f = t.replaceAt p (f n)
  | [], t, n, f, h => by
    simp only [SimpleTree.nodeAt, Option.some_inj] at h
    subst h
    rfl
  | d :: ds, t, n, f, h => by
    simp only [SimpleTree.nodeAt, Option.bind_eq_some] at h
    obtain ⟨c, hc, hn⟩ := h
    have ih := SimpleTree.modifyAt_eq_replaceAt ds c n f hn
    simp only [SimpleTree.replaceAt] at ih
    simp [SimpleTree.modifyAt, SimpleTree.replaceAt, hc, ih]

theorem SimpleTree.replaceAt_self :
    ∀ (p : Path) (t n : SimpleTree), t.nodeAt p = some n → t.replaceAt p n = some t
  | [], t, n, h => by
    simp only [SimpleTree.nodeAt, Option.some_inj] at h
    subst h
    rfl
  | d :: ds, t, n, h => by
    simp only [SimpleTree.nodeAt, Option.bind_eq_some] at h
    obtain ⟨c, hc, hn⟩ := h
    simp only [SimpleTree.replaceAt, SimpleTree.modifyAt, hc]
    have ih := SimpleTree.replaceAt_self ds c n hn
    simp only [SimpleTree.replaceAt] at ih
    simp [ih, SimpleTree.setChild_eq_self t c d hc]

theorem SimpleTree.modifyAt_append :
    ∀ (p q : Path) (t n n2 : SimpleTree) (f : SimpleTree → SimpleTree),
      t.nodeAt p = some n → n.modifyAt q f = some n2 →
      t.modifyAt (p ++ q) f = t.replaceAt p n2
  | [], q, t, n, n2, f, hn, hm => by
    simp only [SimpleTree.nodeAt, Option.some_inj] at hn
    subst hn
    simpa [SimpleTree.replaceAt, SimpleTree.modifyAt] using hm
  | d :: p', q, t, n, n2, f, hn, hm => by
    simp only [SimpleTree.nodeAt, Option.bind_eq_some] at hn
    obtain ⟨c, hc, hn⟩ := hn
    have ih := SimpleTree.modifyAt_append p' q c n n2 f hn hm
    simp only [SimpleTree.replaceAt] at ih
    simp [SimpleTree.modifyAt, SimpleTree.replaceAt, hc, ih, List.cons_append]

/-! ## Claims about the cursor alone (C1, C3, C6) -/

/-- The default-carrying head of a list with one element appended. -/
theorem head?_getD_append_singleton {β : Type} (l : List β) (x dflt : β) :
    ((l ++ [x]).head?).getD dflt = (l.head?).getD x := by
  cases l <;> rfl

/-- Helper for C1: over any run of `advance_simul` steps, the final
`anchor` is the pre-step `lead` of the most recent step whose step
function returned `Advance`, defaulting to the initial `anchor`. -/
theorem runSimul_anchor {α σ : Type} :
    ∀ (fs : List (α → σ → Simul α × σ)) (r : Rope α) (s : σ),
      (runSimul r s fs).1.anchor =
        ((((simulTrace r s fs).filter (fun e => e.2)).map (fun e => e.1)).reverse.head?).getD
          r.anchor
  | [], r, s => rfl
  | f :: fs, r, s => by
    have ih := runSimul_anchor fs (r.applySimul (f r.lead s).1) (f r.lead s).2
    simp only [runSimul, simulTrace, Rope.advance_simul]
    cases hp : (f r.lead s).1 with
    | Advance next =>
      rw [hp] at ih
      simp only [hp, Simul.isAdvance, List.filter_cons, reduceIte, List.map_cons,
        List.reverse_cons]
      rw [head?_getD_append_singleton, ih]
      rfl
    | Hold next =>
      rw [hp] at ih
      simp only [hp, Simul.isAdvance, List.filter_cons, reduceIte]
      rw [ih]
      rfl

/-- C1: for every root and every finite sequence of `advance_simul`
calls starting from a freshly constructed cursor, the final `anchor`
equals the lead position held immediately before the most recent call
whose step function returned `Advance`; if no step returned `Advance`,
`anchor` equals the root. -/
theorem advance_simul_checkpoint_correct {α σ : Type} (root : α) (s : σ)
    (fs : List (α → σ → Simul α × σ)) :
    (runSimul (Rope.new root) s fs).1.anchor =
      ((((simulTrace (Rope.new root) s fs).filter (fun e => e.2)).map
        (fun e => e.1)).reverse.head?).getD root :=
  runSimul_anchor fs (Rope.new root) s

/-- C3: a single `advance_simul` call: `Hold(next)` changes only `lead`
(to `next`); `Advance(next)` sets `anchor` to the pre-step `lead` (even
though the step function may have mutated the structure state) and sets
`lead` to `next`. -/
theorem advance_simul_step_correct {α σ : Type} (r : Rope α) (s : σ)
    (f : α → σ → Simul α × σ) (next : α) (s2 : σ) :
    (f r.lead s = (Simul.Hold next, s2) →
      r.advance_simul s f = ({ anchor := r.anchor, lead := next }, s2)) ∧
    (f r.lead s = (Simul.Advance next, s2) →
      r.advance_simul s f = ({ anchor := r.lead, lead := next }, s2)) := by
  constructor <;> intro h <;> simp [Rope.advance_simul, h, Rope.applySimul]

/-- Witness for C3 at concrete inputs: a `Hold` step from `⟨0, 0⟩` and
an `Advance` step from `⟨5, 5⟩`, with a structure state in `Nat` that
the step functions mutate. -/
theorem advance_simul_step_correct_witness :
    Rope.advance_simul (Rope.new 0) 10 (fun a s => (Simul.Hold (a + 1), s + 3)) =
      ({ anchor := 0, lead := 1 }, 13) ∧
    Rope.advance_simul (Rope.new 5) 10 (fun a s => (Simul.Advance (a + 2), s + 4)) =
      ({ anchor := 5, lead := 7 }, 14) :=
  ⟨(advance_simul_step_correct (Rope.new 0) 10
      (fun a s => (Simul.Hold (a + 1), s + 3)) 1 13).1 rfl,
   (advance_simul_step_correct (Rope.new 5) 10
      (fun a s => (Simul.Advance (a + 2), s + 4)) 7 14).2 rfl⟩

/-- C6: `anchor()` (checkpoint) followed by `fall()` (rewind) leaves
`lead` unchanged, and `fall()` twice in a row equals `fall()` once (the
whole cursor state, `anchor` and `lead`, agrees). -/
theorem checkpoint_rewind_idempotent {α : Type} (r : Rope α) :
    (r.anchorOp.fall).lead = r.lead ∧ r.fall.fall = r.fall :=
  ⟨rfl, rfl⟩

/-! ## C7: the path source -/

/-- C7: `directions_from_bits` yields exactly `depth` directions, the
`i`-th being bit `i` of `bits` (least-significant first, `0 ↦ Left`,
`1 ↦ Right`); and on bits `0b1101` with depth 5 it yields
`[Right, Left, Right, Right, Left]`. -/
theorem directions_from_bits_correct :
    (∀ (bits depth : Nat),
      (directions_from_bits bits depth).length = depth ∧
      (∀ i, i < depth →
        (directions_from_bits bits depth).get? i =
          some (if bits / 2 ^ i % 2 = 0 then Direction.Left else Direction.Right))) ∧
    directions_from_bits 0b1101 5 =
      [Direction.Right, Direction.Left, Direction.Right, Direction.Right, Direction.Left] := by
  constructor
  · intro bits depth
    induction depth generalizing bits with
    | zero => exact ⟨rfl, fun i h => absurd h (Nat.not_lt_zero i)⟩
    | succ dep ih =>
      refine ⟨by simp [directions_from_bits, (ih (bits / 2)).1], ?_⟩
      intro i hi
      cases i with
      | zero =>
        simp [directions_from_bits, Nat.pow_zero, Nat.div_one]
      | succ j =>
        have hj : j < dep := Nat.lt_of_succ_lt_succ hi
        have hget := (ih (bits / 2)).2 j hj
        have hdiv : bits / 2 / 2 ^ j = bits / 2 ^ (j + 1) := by
          rw [Nat.div_div_eq_div_mul]
          congr 1
          rw [Nat.pow_succ]
          ring
        simp only [directions_from_bits, List.get?_cons_succ, hget, hdiv]
  · rfl

/-- Witness for C7's indexed part at a concrete input: bit 2 of
`0b1101` is `1`, so position 2 of the produced path is `Right`. -/
theorem directions_from_bits_correct_witness :
    (directions_from_bits 13 5).get? 2 = some Direction.Right := by
  have h := (directions_from_bits_correct.1 13 5).2 2 (by decide)
  simpa using h

/-! ## C4: the two concrete prune-or-increment scenarios -/

/-- C4: with path bits `0b1101` at depth 5: on the example tree whose
node 5 levels deep is a leaf, `prune_or_increment` removes the
two-child ancestor's (the root's) right subtree and changes nothing
else; on the example tree whose deep node has two children, it leaves
the shape unchanged and increments exactly that node's value (5 ↦ 6). -/
theorem prune_or_increment_example_correct :
    prune_or_increment (create_tree_example false 5) directions_example =
      .ok (SimpleTree.mk 0 (some (empty_tree 1)) none) ∧
    prune_or_increment (create_tree_example true 5) directions_example =
      .ok (create_tree_example true 6) :=
  ⟨rfl, rfl⟩

/-! ## C5: the descend-to-resolution loop, case by case -/

/-- C5: one round of the descend-to-resolution loop, from any lead
position denoting a node `n`: a node with no children stops the loop
with the prune decision warranted (`prune` stays `true`); a node with
two children increments its value and stops with no prune warranted
(`prune` becomes `false`, overriding any pending decision); a node with
exactly one child moves `lead` into that child and repeats (for either
incoming `prune` flag). -/
theorem descend_loop_cases (t : SimpleTree) (lead : Path) (n : SimpleTree) (fuel : Nat)
    (h : t.nodeAt lead = some n) :
    (n.left = none → n.right = none →
      descendLoopFuel (fuel + 1) t lead true = .ok (t, lead, true)) ∧
    (∀ lc rc, n.left = some lc → n.right = some rc →
      ∃ t2, t.modifyAt lead (fun m => m.setValue ((m.value + 1) % 256)) = some t2 ∧
        descendLoopFuel (fuel + 1) t lead true = .ok (t2, lead, false)) ∧
    (∀ c, n.left = some c → n.right = none → ∀ prune,
      descendLoopFuel (fuel + 1) t lead prune =
        descendLoopFuel fuel t (lead ++ [Direction.Left]) prune) ∧
    (∀ c, n.right = some c → n.left = none → ∀ prune,
      descendLoopFuel (fuel + 1) t lead prune =
        descendLoopFuel fuel t (lead ++ [Direction.Right]) prune) := by
  refine ⟨?_, ?_, ?_, ?_⟩
  · intro hl hr
    obtain ⟨v, nl, nr⟩ := n
    simp only [SimpleTree.left] at hl
    simp only [SimpleTree.right] at hr
    subst hl
    subst hr
    have hd : descendIter t lead true = .ok (t, lead, false, true) := by
      rw [descendIter, h]
      rfl
    rw [descendLoopFuel, hd]
    rfl
  · intro lc rc hl hr
    obtain ⟨t2, ht2⟩ :=
      SimpleTree.modifyAt_isSome lead t n (fun m => m.setValue ((m.value + 1) % 256)) h
    refine ⟨t2, ht2, ?_⟩
    obtain ⟨v, nl, nr⟩ := n
    simp only [SimpleTree.left] at hl
    simp only [SimpleTree.right] at hr
    subst hl
    subst hr
    have hd : descendIter t lead true = .ok (t2, lead, false, false) := by
      rw [descendIter, h]
      show (do
        let t2 ← getOrErr (t.modifyAt lead (fun m => m.setValue ((m.value + 1) % 256)))
          Err.unwrapNone
        (.ok (t2, lead, false, false) : Except Err (SimpleTree × Path × Bool × Bool))) =
          .ok (t2, lead, false, false)
      rw [ht2]
      rfl
    rw [descendLoopFuel, hd]
    rfl
  · intro c hl hr prune
    obtain ⟨v, nl, nr⟩ := n
    simp only [SimpleTree.left] at hl
    simp only [SimpleTree.right] at hr
    subst hl
    subst hr
    have hd : descendIter t lead prune = .ok (t, lead ++ [Direction.Left], true, prune) := by
      rw [descendIter, h]
      rfl
    rw [descendLoopFuel, hd]
    rfl
  · intro c hr hl prune
    obtain ⟨v, nl, nr⟩ := n
    simp only [SimpleTree.left] at hl
    simp only [SimpleTree.right] at hr
    subst hl
    subst hr
    have hd : descendIter t lead prune = .ok (t, lead ++ [Direction.Right], true, prune) := by
      rw [descendIter, h]
      rfl
    rw [descendLoopFuel, hd]
    rfl

/-- Witness for C5 at concrete inputs: a leaf stops the loop at once
with the prune warranted, and a one-child root moves the lead into its
child. -/
theorem descend_loop_cases_witness :
    descendLoopFuel 1 (SimpleTree.mk 7 none none) [] true =
      .ok (SimpleTree.mk 7 none none, [], true) ∧
    descendLoopFuel 3 (SimpleTree.mk 7 (some (SimpleTree.mk 8 none none)) none) [] true =
      descendLoopFuel 2 (SimpleTree.mk 7 (some (SimpleTree.mk 8 none none)) none)
        [Direction.Left] true :=
  ⟨(descend_loop_cases (SimpleTree.mk 7 none none) [] (SimpleTree.mk 7 none none) 0 rfl).1
      rfl rfl,
   ((descend_loop_cases (SimpleTree.mk 7 (some (SimpleTree.mk 8 none none)) none) []
      (SimpleTree.mk 7 (some (SimpleTree.mk 8 none none)) none) 2 rfl).2.2.1
      (SimpleTree.mk 8 none none) rfl rfl true)⟩

/-! ## Unfolding lemmas for the descend loop and `needs_prune` -/

theorem needs_prune_leaf (v : Nat) :
    needs_prune (.mk v none none) = .ok (.mk v none none, true) := by
  rw [needs_prune]; rfl

theorem needs_prune_two (v : Nat) (l r : SimpleTree) :
    needs_prune (.mk v (some l) (some r)) =
      .ok ((SimpleTree.mk v (some l) (some r)).setValue ((v + 1) % 256), false) := by
  rw [needs_prune]; rfl

theorem needs_prune_left (v : Nat) (l : SimpleTree) :
    needs_prune (.mk v (some l) none) =
      (needs_prune l).map (fun p => ((SimpleTree.mk v (some l) none).setLeft (some p.1), p.2)) := by
  rw [needs_prune]; rfl

theorem needs_prune_right (v : Nat) (r : SimpleTree) :
    needs_prune (.mk v none (some r)) =
      (needs_prune r).map (fun p => ((SimpleTree.mk v none (some r)).setRight (some p.1), p.2)) := by
  rw [needs_prune]; rfl

theorem descendIter_leaf (t : SimpleTree) (p : Path) (v : Nat) (prune : Bool)
    (h : t.nodeAt p = some (.mk v none none)) :
    descendIter t p prune = .ok (t, p, false, prune) := by
  rw [descendIter, h]; rfl

theorem descendIter_two (t : SimpleTree) (p : Path) (v : Nat) (lc rc : SimpleTree)
    (prune : Bool) (t2 : SimpleTree)
    (h : t.nodeAt p = some (.mk v (some lc) (some rc)))
    (h2 : t.modifyAt p (fun m => m.setValue ((m.value + 1) % 256)) = some t2) :
    descendIter t p prune = .ok (t2, p, false, false) := by
  rw [descendIter, h]
  show (do
    let t2 ← getOrErr (t.modifyAt p (fun m => m.setValue ((m.value + 1) % 256))) Err.unwrapNone
    (.ok (t2, p, false, false) : Except Err (SimpleTree × Path × Bool × Bool))) =
    .ok (t2, p, false, false)
  rw [h2]
  rfl

theorem descendIter_left (t : SimpleTree) (p : Path) (v : Nat) (lc : SimpleTree)
    (prune : Bool) (h : t.nodeAt p = some (.mk v (some lc) none)) :
    descendIter t p prune = .ok (t, p ++ [Direction.Left], true, prune) := by
  rw [descendIter, h]; rfl

theorem descendIter_right (t : SimpleTree) (p : Path) (v : Nat) (rc : SimpleTree)
    (prune : Bool) (h : t.nodeAt p = some (.mk v none (some rc))) :
    descendIter t p prune = .ok (t, p ++ [Direction.Right], true, prune) := by
  rw [descendIter, h]; rfl

theorem descendLoopFuel_succ (fuel : Nat) (t : SimpleTree) (p : Path) (prune : Bool) :
    descendLoopFuel (fuel + 1) t p prune =
      (descendIter t p prune).bind (fun s =>
        if s.2.2.1 then descendLoopFuel fuel s.1 s.2.1 s.2.2.2
        else .ok (s.1, s.2.1, s.2.2.2)) := rfl

/-- The descend-to-resolution loop computes, at any valid lead
position, exactly what `needs_prune` computes on the subtree there:
the same rewritten subtree (spliced back in place), a final lead at the
end of the descended single-child chain, and the `needs_prune` flag
conjoined with the incoming `prune` flag.  The fuel only needs to
exceed the subtree's size. -/
theorem descend_needs :
    ∀ (fuel : Nat) (n t : SimpleTree) (p : Path) (prune : Bool),
      t.nodeAt p = some n → n.size < fuel →
      ∃ (res : SimpleTree × Bool) (chain : Path) (t' : SimpleTree),
        needs_prune n = .ok res ∧
        t.replaceAt p res.1 = some t' ∧
        descendLoopFuel fuel t p prune = .ok (t', p ++ chain, prune && res.2)
  | 0, n, t, p, prune, _, hlt => absurd hlt (Nat.not_lt_zero _)
  | fuel + 1, n, t, p, prune, h, hlt => by
    obtain ⟨v, nl, nr⟩ := n
    cases nl with
    | none =>
      cases nr with
      | none =>
        refine ⟨(.mk v none none, true), [], t, needs_prune_leaf v,
          SimpleTree.replaceAt_self p t _ h, ?_⟩
        rw [descendLoopFuel_succ, descendIter_leaf t p v prune h]
        simp [Except.bind]
      | some rc =>
        have hchild : t.nodeAt (p ++ [Direction.Right]) = some rc := by
          rw [SimpleTree.nodeAt_append, h]
          rfl
        have hsz : rc.size < fuel := by
          have h1 : rc.size < (SimpleTree.mk v none (some rc)).size :=
            SimpleTree.child_size_lt _ _ Direction.Right rfl
          omega
        obtain ⟨res, chain, t', h1, h2, h3⟩ :=
          descend_needs fuel rc t (p ++ [Direction.Right]) prune hchild hsz
        refine ⟨((SimpleTree.mk v none (some rc)).setRight (some res.1), res.2),
          Direction.Right :: chain, t', ?_, ?_, ?_⟩
        · rw [needs_prune_right, h1]
          rfl
        · have hmod : (SimpleTree.mk v none (some rc)).modifyAt [Direction.Right]
              (fun _ => res.1) =
              some ((SimpleTree.mk v none (some rc)).setChild Direction.Right (some res.1)) := rfl
          have happ := SimpleTree.modifyAt_append p [Direction.Right] t _ _
            (fun _ => res.1) h hmod
          rw [SimpleTree.replaceAt] at h2
          rw [happ] at h2
          exact h2
        · have hstep : descendLoopFuel (fuel + 1) t p prune =
              descendLoopFuel fuel t (p ++ [Direction.Right]) prune := by
            rw [descendLoopFuel_succ, descendIter_right t p v rc prune h]
            rfl
          rw [hstep, h3]
          simp
    | some lc =>
      cases nr with
      | none =>
        have hchild : t.nodeAt (p ++ [Direction.Left]) = some lc := by
          rw [SimpleTree.nodeAt_append, h]
          rfl
        have hsz : lc.size < fuel := by
          have h1 : lc.size < (SimpleTree.mk v (some lc) none).size :=
            SimpleTree.child_size_lt _ _ Direction.Left rfl
          omega
        obtain ⟨res, chain, t', h1, h2, h3⟩ :=
          descend_needs fuel lc t (p ++ [Direction.Left]) prune hchild hsz
        refine ⟨((SimpleTree.mk v (some lc) none).setLeft (some res.1), res.2),
          Direction.Left :: chain, t', ?_, ?_, ?_⟩
        · rw [needs_prune_left, h1]
          rfl
        · have hmod : (SimpleTree.mk v (some lc) none).modifyAt [Direction.Left]
              (fun _ => res.1) =
              some ((SimpleTree.mk v (some lc) none).setChild Direction.Left (some res.1)) := rfl
          have happ := SimpleTree.modifyAt_append p [Direction.Left] t _ _
            (fun _ => res.1) h hmod
          rw [SimpleTree.replaceAt] at h2
          rw [happ] at h2
          exact h2
        · have hstep : descendLoopFuel (fuel + 1) t p prune =
              descendLoopFuel fuel t (p ++ [Direction.Left]) prune := by
            rw [descendLoopFuel_succ, descendIter_left t p v lc prune h]
            rfl
          rw [hstep, h3]
          simp
      | some rc =>
        obtain ⟨t2, ht2⟩ := SimpleTree.modifyAt_isSome p t _
          (fun m => m.setValue ((m.value + 1) % 256)) h
        refine ⟨((SimpleTree.mk v (some lc) (some rc)).setValue ((v + 1) % 256), false),
          [], t2, needs_prune_two v lc rc, ?_, ?_⟩
        · have he := SimpleTree.modifyAt_eq_replaceAt p t _
            (fun m => m.setValue ((m.value + 1) % 256)) h
          rw [he] at ht2
          exact ht2
        · rw [descendLoopFuel_succ, descendIter_two t p v lc rc prune t2 h ht2]
          simp [Except.bind]

/-- `needs_prune` never reaches its `unreachable!()` arm: it always
returns `ok`. -/
theorem needs_prune_ok (n : SimpleTree) : ∃ res, needs_prune n = .ok res := by
  obtain ⟨res, _, _, h1, _, _⟩ :=
    descend_needs (n.size + 1) n n [] true rfl (Nat.lt_succ_self _)
  exact ⟨res, h1⟩

/-- With fuel exceeding the size of the subtree at the lead position,
the descend-to-resolution loop returns `ok`: it neither runs out of
fuel nor reaches the `panic!("unreachable")` arm. -/
theorem descendLoop_ok (fuel : Nat) (t n : SimpleTree) (p : Path) (prune : Bool)
    (h : t.nodeAt p = some n) (hs : n.size < fuel) :
    ∃ out, descendLoopFuel fuel t p prune = .ok out := by
  obtain ⟨res, chain, t', _, _, h3⟩ := descend_needs fuel n t p prune h hs
  exact ⟨_, h3⟩

/-! ## Reduction helpers for `Except` and the walk phase -/

theorem except_bind_ok {ε β γ : Type} (a : β) (k : β → Except ε γ) :
    (do
      let s ← (Except.ok a : Except ε β)
      k s) = k a := rfl

theorem except_bind_err {ε β γ : Type} (e : ε) (k : β → Except ε γ) :
    (do
      let s ← (Except.error e : Except ε β)
      k s) = Except.error e := rfl

theorem except_map_ok {ε β γ : Type} (f : β → γ) (a : β) :
    (Except.ok a : Except ε β).map f = .ok (f a) := rfl

theorem except_map_err {ε β γ : Type} (f : β → γ) (e : ε) :
    (Except.error e : Except ε β).map f = .error e := rfl

theorem except_map_map {ε β γ δ : Type} (g : β → γ) (f : γ → δ) (x : Except ε β) :
    (x.map g).map f = x.map (fun y => f (g y)) := by
  cases x <;> rfl

theorem except_map_congr {ε β γ : Type} {f g : β → γ} {x : Except ε β}
    (h : ∀ y, f y = g y) : x.map f = x.map g := by
  cases x with
  | error e => rfl
  | ok a => simp [Except.map, h a]

theorem walkPhase_nil (t : SimpleTree) (r : Rope Path) (pd : Option Direction) :
    walkPhase t [] r pd = .ok (r, pd) := rfl

theorem walkPhase_cons (t : SimpleTree) (d : Direction) (ds : List Direction)
    (r : Rope Path) (pd : Option Direction) :
    walkPhase t (d :: ds) r pd = (walkStep t d r pd).bind (fun s => walkPhase t ds s.1 s.2) :=
  rfl

theorem walkStep_nonode (t : SimpleTree) (dir : Direction) (r : Rope Path)
    (pd : Option Direction) (hnode : t.nodeAt r.lead = none) :
    walkStep t dir r pd = .error .unwrapNone := by
  rw [walkStep, hnode]
  rfl

theorem walkStep_nochild (t : SimpleTree) (dir : Direction) (r : Rope Path)
    (pd : Option Direction) (node : SimpleTree) (hnode : t.nodeAt r.lead = some node)
    (hchild : node.child dir = none) :
    walkStep t dir r pd = .error .unwrapNone := by
  rw [walkStep, hnode]
  show (do
    let child ← getOrErr (node.child dir) Err.unwrapNone
    if (node.left.isSome && node.right.isSome) && (child.left.isNone || child.right.isNone) then
      (.ok (r.applySimul (.Advance (r.lead ++ [dir])), some dir) :
        Except Err (Rope Path × Option Direction))
    else .ok (r.applySimul (.Hold (r.lead ++ [dir])), pd)) = .error Err.unwrapNone
  rw [hchild]
  rfl

theorem walkStep_advance (t : SimpleTree) (dir : Direction) (r : Rope Path)
    (pd : Option Direction) (node child : SimpleTree)
    (hnode : t.nodeAt r.lead = some node) (hchild : node.child dir = some child)
    (hcond : ((node.left.isSome && node.right.isSome) &&
      (child.left.isNone || child.right.isNone)) = true) :
    walkStep t dir r pd = .ok ({ anchor := r.lead, lead := r.lead ++ [dir] }, some dir) := by
  rw [walkStep, hnode]
  show (do
    let child ← getOrErr (node.child dir) Err.unwrapNone
    if (node.left.isSome && node.right.isSome) && (child.left.isNone || child.right.isNone) then
      (.ok (r.applySimul (.Advance (r.lead ++ [dir])), some dir) :
        Except Err (Rope Path × Option Direction))
    else .ok (r.applySimul (.Hold (r.lead ++ [dir])), pd)) = _
  rw [hchild]
  show (if (node.left.isSome && node.right.isSome) &&
      (child.left.isNone || child.right.isNone) then
      (.ok (r.applySimul (.Advance (r.lead ++ [dir])), some dir) :
        Except Err (Rope Path × Option Direction))
    else .ok (r.applySimul (.Hold (r.lead ++ [dir])), pd)) = _
  rw [hcond]
  rfl

theorem walkStep_hold (t : SimpleTree) (dir : Direction) (r : Rope Path)
    (pd : Option Direction) (node child : SimpleTree)
    (hnode : t.nodeAt r.lead = some node) (hchild : node.child dir = some child)
    (hcond : ((node.left.isSome && node.right.isSome) &&
      (child.left.isNone || child.right.isNone)) = false) :
    walkStep t dir r pd = .ok ({ anchor := r.anchor, lead := r.lead ++ [dir] }, pd) := by
  rw [walkStep, hnode]
  show (do
    let child ← getOrErr (node.child dir) Err.unwrapNone
    if (node.left.isSome && node.right.isSome) && (child.left.isNone || child.right.isNone) then
      (.ok (r.applySimul (.Advance (r.lead ++ [dir])), some dir) :
        Except Err (Rope Path × Option Direction))
    else .ok (r.applySimul (.Hold (r.lead ++ [dir])), pd)) = _
  rw [hchild]
  show (if (node.left.isSome && node.right.isSome) &&
      (child.left.isNone || child.right.isNone) then
      (.ok (r.applySimul (.Advance (r.lead ++ [dir])), some dir) :
        Except Err (Rope Path × Option Direction))
    else .ok (r.applySimul (.Hold (r.lead ++ [dir])), pd)) = _
  rw [hcond]
  rfl

/-- The node one step below a known node, by path append. -/
theorem nodeAt_append_child (t node child : SimpleTree) (p : Path) (d : Direction)
    (hnode : t.nodeAt p = some node) (hchild : node.child d = some child) :
    t.nodeAt (p ++ [d]) = some child := by
  rw [SimpleTree.nodeAt_append, hnode]
  simp [SimpleTree.nodeAt, hchild]

/-- The only error a walk step can produce models `Option::unwrap`. -/
theorem walkStep_err (t : SimpleTree) (dir : Direction) (r : Rope Path)
    (pd : Option Direction) (e : Err) (h : walkStep t dir r pd = .error e) :
    e = .unwrapNone := by
  cases hnode : t.nodeAt r.lead with
  | none =>
    rw [walkStep_nonode t dir r pd hnode] at h
    exact (Except.error.inj h).symm
  | some node =>
    cases hchild : node.child dir with
    | none =>
      rw [walkStep_nochild t dir r pd node hnode hchild] at h
      exact (Except.error.inj h).symm
    | some child =>
      cases hcond : ((node.left.isSome && node.right.isSome) &&
          (child.left.isNone || child.right.isNone)) with
      | true =>
        rw [walkStep_advance t dir r pd node child hnode hchild hcond] at h
        exact Except.noConfusion h
      | false =>
        rw [walkStep_hold t dir r pd node child hnode hchild hcond] at h
        exact Except.noConfusion h

/-- A successful walk step's new lead extends the old lead by the
requested direction, into an existing child. -/
theorem walkStep_ok_lead (t : SimpleTree) (dir : Direction) (r : Rope Path)
    (pd : Option Direction) (s : Rope Path × Option Direction)
    (h : walkStep t dir r pd = .ok s) :
    ∃ node child, t.nodeAt r.lead = some node ∧ node.child dir = some child ∧
      s.1.lead = r.lead ++ [dir] := by
  cases hnode : t.nodeAt r.lead with
  | none =>
    rw [walkStep_nonode t dir r pd hnode] at h
    exact Except.noConfusion h
  | some node =>
    cases hchild : node.child dir with
    | none =>
      rw [walkStep_nochild t dir r pd node hnode hchild] at h
      exact Except.noConfusion h
    | some child =>
      cases hcond : ((node.left.isSome && node.right.isSome) &&
          (child.left.isNone || child.right.isNone)) with
      | true =>
        rw [walkStep_advance t dir r pd node child hnode hchild hcond] at h
        exact ⟨node, child, rfl, hchild, by rw [← Except.ok.inj h]⟩
      | false =>
        rw [walkStep_hold t dir r pd node child hnode hchild hcond] at h
        exact ⟨node, child, rfl, hchild, by rw [← Except.ok.inj h]⟩

/-- The only error the walk phase can produce models `Option::unwrap`. -/
theorem walkPhase_err :
    ∀ (ds : List Direction) (t : SimpleTree) (r : Rope Path) (pd : Option Direction) (e : Err),
      walkPhase t ds r pd = .error e → e = .unwrapNone
  | [], t, r, pd, e, h => Except.noConfusion h
  | d :: ds, t, r, pd, e, h => by
    rw [walkPhase_cons] at h
    cases hw : walkStep t d r pd with
    | error e2 =>
      rw [hw] at h
      have he2 := walkStep_err t d r pd e2 hw
      cases h
      exact he2
    | ok s =>
      rw [hw] at h
      exact walkPhase_err ds t s.1 s.2 e h

/-- A successful walk keeps the lead at a node that exists. -/
theorem walkPhase_ok_lead :
    ∀ (ds : List Direction) (t : SimpleTree) (r : Rope Path) (pd : Option Direction)
      (s : Rope Path × Option Direction),
      walkPhase t ds r pd = .ok s → (∃ m, t.nodeAt r.lead = some m) →
      ∃ m, t.nodeAt s.1.lead = some m
  | [], t, r, pd, s, h, hv => by
    rw [walkPhase_nil] at h
    rw [← Except.ok.inj h]
    exact hv
  | d :: ds, t, r, pd, s, h, hv => by
    rw [walkPhase_cons] at h
    cases hw : walkStep t d r pd with
    | error e2 =>
      rw [hw] at h
      exact Except.noConfusion h
    | ok s1 =>
      rw [hw] at h
      obtain ⟨node, child, hnode, hchild, hlead⟩ := walkStep_ok_lead t d r pd s1 hw
      refine walkPhase_ok_lead ds t s1.1 s1.2 s h ⟨child, ?_⟩
      rw [hlead]
      exact nodeAt_append_child t node child r.lead d hnode hchild

theorem except_ok_bind {ε β γ : Type} (a : β) (k : β → Except ε γ) :
    Except.bind (Except.ok a) k = k a := rfl

theorem except_err_bind {ε β γ : Type} (e : ε) (k : β → Except ε γ) :
    Except.bind (Except.error e) k = (Except.error e : Except ε γ) := rfl

/-- Shift lemma for the walk phase: walking `ds` in `t` from a lead
position `p` holding subtree `c` is the walk of `ds` in `c` from its
root, with every produced path prefixed by `p`; the anchor and pending
prune direction fall back to the incoming ones when no step of the
remaining walk returned `Advance` (i.e. when the sub-walk's
`prune_direction` output is `none`). -/
theorem walk_shift :
    ∀ (ds : List Direction) (t c : SimpleTree) (p a0 : Path) (pd : Option Direction),
      t.nodeAt p = some c →
      walkPhase t ds ⟨a0, p⟩ pd =
        (walkPhase c ds (Rope.new []) none).map (fun x =>
          ({ anchor := if x.2.isSome then p ++ x.1.anchor else a0,
             lead := p ++ x.1.lead },
           if x.2.isSome then x.2 else pd))
  | [], t, c, p, a0, pd, h => by
    rw [walkPhase_nil, walkPhase_nil, except_map_ok]
    simp [Rope.new]
  | d :: ds, t, c, p, a0, pd, h => by
    have hnodec : c.nodeAt ([] : Path) = some c := rfl
    rw [walkPhase_cons, walkPhase_cons]
    cases hchild : c.child d with
    | none =>
      rw [walkStep_nochild t d ⟨a0, p⟩ pd c h hchild,
        walkStep_nochild c d (Rope.new []) none c hnodec hchild,
        except_err_bind, except_err_bind, except_map_err]
    | some child =>
      have hct : t.nodeAt (p ++ [d]) = some child := nodeAt_append_child t c child p d h hchild
      have hcc : c.nodeAt ([d] : Path) = some child := by
        have h2 := nodeAt_append_child c c child [] d hnodec hchild
        simpa using h2
      cases hcond : ((c.left.isSome && c.right.isSome) &&
          (child.left.isNone || child.right.isNone)) with
      | true =>
        have ht : walkStep t d ⟨a0, p⟩ pd = .ok (⟨p, p ++ [d]⟩, some d) :=
          walkStep_advance t d ⟨a0, p⟩ pd c child h hchild hcond
        have hc : walkStep c d (Rope.new []) none = .ok (⟨[], [d]⟩, some d) :=
          walkStep_advance c d (Rope.new []) none c child hnodec hchild hcond
        rw [ht, hc, except_ok_bind, except_ok_bind]
        show walkPhase t ds ⟨p, p ++ [d]⟩ (some d) =
          (walkPhase c ds ⟨[], [d]⟩ (some d)).map _
        rw [walk_shift ds t child (p ++ [d]) p (some d) hct,
          walk_shift ds c child [d] [] (some d) hcc, except_map_map]
        refine except_map_congr ?_
        intro y
        cases hy : y.2 <;> simp [hy, List.append_assoc]
      | false =>
        have ht : walkStep t d ⟨a0, p⟩ pd = .ok (⟨a0, p ++ [d]⟩, pd) :=
          walkStep_hold t d ⟨a0, p⟩ pd c child h hchild hcond
        have hc : walkStep c d (Rope.new []) none = .ok (⟨[], [d]⟩, none) :=
          walkStep_hold c d (Rope.new []) none c child hnodec hchild hcond
        rw [ht, hc, except_ok_bind, except_ok_bind]
        show walkPhase t ds ⟨a0, p ++ [d]⟩ pd =
          (walkPhase c ds ⟨[], [d]⟩ none).map _
        rw [walk_shift ds t child (p ++ [d]) a0 pd hct,
          walk_shift ds c child [d] [] none hcc, except_map_map]
        refine except_map_congr ?_
        intro y
        cases hy : y.2 <;> simp [hy, List.append_assoc]

theorem SimpleTree.modifyAt_cons_some (t c : SimpleTree) (d : Direction) (q : Path)
    (f : SimpleTree → SimpleTree) (h : t.child d = some c) :
    t.modifyAt (d :: q) f = (c.modifyAt q f).map (fun c2 => t.setChild d c2) := by
  simp [SimpleTree.modifyAt, h]

theorem SimpleTree.replaceAt_cons (t c y x : SimpleTree) (d : Direction) (q : Path)
    (hchild : t.child d = some c) (hrep : c.replaceAt q x = some y) :
    t.replaceAt (d :: q) x = some (t.setChild d y) := by
  rw [SimpleTree.replaceAt] at hrep ⊢
  rw [SimpleTree.modifyAt_cons_some t c d q _ hchild, hrep]
  rfl

theorem safe_impl_nil (t : SimpleTree) :
    prune_or_increment_safe_impl t [] = needs_prune t := rfl

theorem safe_impl_cons_def (t : SimpleTree) (d : Direction) (ds : List Direction) :
    prune_or_increment_safe_impl t (d :: ds) =
      Except.bind (getOrErr (t.child d) Err.unwrapNone) (fun child =>
        Except.bind (prune_or_increment_safe_impl child ds) (fun p =>
          if p.2 then
            if t.left.isSome && t.right.isSome then
              match d with
              | .Left => .ok (t.setLeft none, false)
              | .Right => .ok (t.setRight none, false)
            else .ok (t.setChild d p.1, true)
          else .ok (t.setChild d p.1, false))) := rfl

theorem safe_impl_cons_none (t : SimpleTree) (d : Direction) (ds : List Direction)
    (h : t.child d = none) :
    prune_or_increment_safe_impl t (d :: ds) = .error .unwrapNone := by
  rw [safe_impl_cons_def, h]
  rfl

theorem safe_impl_cons_some (t c : SimpleTree) (d : Direction) (ds : List Direction)
    (h : t.child d = some c) :
    prune_or_increment_safe_impl t (d :: ds) =
      Except.bind (prune_or_increment_safe_impl c ds) (fun p =>
        if p.2 then
          if t.left.isSome && t.right.isSome then
            match d with
            | .Left => .ok (t.setLeft none, false)
            | .Right => .ok (t.setRight none, false)
          else .ok (t.setChild d p.1, true)
        else .ok (t.setChild d p.1, false)) := by
  rw [safe_impl_cons_def, h]
  rfl

/-- Unfolding of `prune_or_increment` into explicit binds. -/
theorem prune_or_increment_def (t : SimpleTree) (dirs : List Direction) :
    prune_or_increment t dirs =
      Except.bind (walkPhase t dirs (Rope.new []) none) (fun w =>
        Except.bind (descendLoopFuel (t.size + 1) t w.1.lead true) (fun dd =>
          match dd.2.2, w.2 with
          | true, some Direction.Left =>
            getOrErr (dd.1.modifyAt w.1.into_anchor (fun n => n.setLeft none)) .unwrapNone
          | true, some Direction.Right =>
            getOrErr (dd.1.modifyAt w.1.into_anchor (fun n => n.setRight none)) .unwrapNone
          | _, _ => .ok dd.1)) := rfl

/-- Unfolding of `por_pair` into explicit binds. -/
theorem por_pair_def (t : SimpleTree) (dirs : List Direction) :
    por_pair t dirs =
      Except.bind (walkPhase t dirs (Rope.new []) none) (fun w =>
        Except.bind (descendLoopFuel (t.size + 1) t w.1.lead true) (fun dd =>
          match dd.2.2, w.2 with
          | true, some Direction.Left =>
            (getOrErr (dd.1.modifyAt w.1.into_anchor (fun n => n.setLeft none))
              .unwrapNone).map (fun t3 => (t3, false))
          | true, some Direction.Right =>
            (getOrErr (dd.1.modifyAt w.1.into_anchor (fun n => n.setRight none))
              .unwrapNone).map (fun t3 => (t3, false))
          | true, none => .ok (dd.1, true)
          | false, _ => .ok (dd.1, false))) := rfl

/-- `por_pair` after a successful walk, with the walk result's anchor,
lead and pending direction exposed. -/
theorem por_pair_walk_ok (t : SimpleTree) (dirs : List Direction) (A L : Path)
    (PD : Option Direction)
    (hw : walkPhase t dirs (Rope.new []) none = .ok (⟨A, L⟩, PD)) :
    por_pair t dirs =
      Except.bind (descendLoopFuel (t.size + 1) t L true) (fun dd =>
        match dd.2.2, PD with
        | true, some Direction.Left =>
          (getOrErr (dd.1.modifyAt A (fun n => n.setLeft none)) .unwrapNone).map
            (fun t3 => (t3, false))
        | true, some Direction.Right =>
          (getOrErr (dd.1.modifyAt A (fun n => n.setRight none)) .unwrapNone).map
            (fun t3 => (t3, false))
        | true, none => .ok (dd.1, true)
        | false, _ => .ok (dd.1, false)) := by
  rw [por_pair_def, hw, except_ok_bind]
  rfl

/-- `prune_or_increment` is the first projection of `por_pair`. -/
theorem prune_or_increment_eq_pair (t : SimpleTree) (dirs : List Direction) :
    prune_or_increment t dirs = (por_pair t dirs).map (fun q => q.1) := by
  rw [prune_or_increment_def, por_pair_def]
  cases hw : walkPhase t dirs (Rope.new []) none with
  | error e => rw [except_err_bind, except_err_bind, except_map_err]
  | ok w =>
    rw [except_ok_bind, except_ok_bind]
    cases hd : descendLoopFuel (t.size + 1) t w.1.lead true with
    | error e => rw [except_err_bind, except_err_bind, except_map_err]
    | ok dd =>
      rw [except_ok_bind, except_ok_bind]
      cases hp : dd.2.2 with
      | false => cases w.2 <;> rfl
      | true =>
        cases hpd : w.2 with
        | none => rfl
        | some dir2 =>
          cases dir2 with
          | Left =>
            cases hm : dd.1.modifyAt w.1.into_anchor (fun n => n.setLeft none) <;> rfl
          | Right =>
            cases hm : dd.1.modifyAt w.1.into_anchor (fun n => n.setRight none) <;> rfl

/-- When the recursive formulation reports "needs prune" upward, the
subtree's root has fewer than two children. -/
theorem safe_impl_true_children :
    ∀ (ds : List Direction) (c : SimpleTree) (x : SimpleTree × Bool),
      prune_or_increment_safe_impl c ds = .ok x → x.2 = true →
      (c.left.isSome && c.right.isSome) = false
  | [], c, x, h, hx => by
    obtain ⟨v, nl, nr⟩ := c
    cases nl with
    | none => simp [SimpleTree.left]
    | some lc =>
      cases nr with
      | none => simp [SimpleTree.right]
      | some rc =>
        rw [safe_impl_nil, needs_prune_two] at h
        rw [← Except.ok.inj h] at hx
        exact absurd hx (by simp)
  | d :: ds, c, x, h, hx => by
    cases hchild : c.child d with
    | none =>
      rw [safe_impl_cons_none c d ds hchild] at h
      exact Except.noConfusion h
    | some cc =>
      rw [safe_impl_cons_some c cc d ds hchild] at h
      cases hs : prune_or_increment_safe_impl cc ds with
      | error e =>
        rw [hs, except_err_bind] at h
        exact Except.noConfusion h
      | ok p =>
        rw [hs, except_ok_bind] at h
        cases hp2 : p.2 with
        | false =>
          rw [hp2] at h
          simp only [Bool.false_eq_true, if_false] at h
          rw [← Except.ok.inj h] at hx
          exact absurd hx (by simp)
        | true =>
          rw [hp2] at h
          simp only [if_true] at h
          cases hcc : (c.left.isSome && c.right.isSome) with
          | false => rfl
          | true =>
            rw [hcc] at h
            simp only [if_true] at h
            cases d with
            | Left =>
              rw [← Except.ok.inj h] at hx
              exact absurd hx (by simp)
            | Right =>
              rw [← Except.ok.inj h] at hx
              exact absurd hx (by simp)

/-- The cursor-based pipeline and the recursive reference formulation
agree, including on the propagated "needs prune" flag and on errors. -/
theorem por_pair_eq_safe :
    ∀ (dirs : List Direction) (t : SimpleTree),
      por_pair t dirs = prune_or_increment_safe_impl t dirs
  | [], t => by
    obtain ⟨res, chain, t', h1, h2, h3⟩ :=
      descend_needs (t.size + 1) t t [] true rfl (Nat.lt_succ_self _)
    obtain ⟨resT, resB⟩ := res
    have ht' : resT = t' := Option.some.inj h2
    subst ht'
    have hpp := por_pair_walk_ok t [] [] [] none rfl
    rw [hpp, h3, except_ok_bind, safe_impl_nil, h1]
    cases resB with
    | true => rfl
    | false => rfl
  | d :: dirs, t => by
    cases hchild : t.child d with
    | none =>
      have hw : walkPhase t (d :: dirs) (Rope.new []) none = .error .unwrapNone := by
        rw [walkPhase_cons, walkStep_nochild t d (Rope.new []) none t rfl hchild,
          except_err_bind]
      rw [por_pair_def, hw, except_err_bind, safe_impl_cons_none t d dirs hchild]
    | some c =>
      have hchild_t : t.nodeAt ([d] : Path) = some c := by
        have h2 := nodeAt_append_child t t c [] d rfl hchild
        simpa using h2
      have ht : walkStep t d (Rope.new []) none =
          .ok (⟨[], [d]⟩, if ((t.left.isSome && t.right.isSome) &&
            (c.left.isNone || c.right.isNone)) then some d else none) := by
        cases hcond : ((t.left.isSome && t.right.isSome) &&
            (c.left.isNone || c.right.isNone)) with
        | true =>
          exact walkStep_advance t d (Rope.new []) none t c rfl hchild hcond
        | false =>
          exact walkStep_hold t d (Rope.new []) none t c rfl hchild hcond
      have hw0 : walkPhase t (d :: dirs) (Rope.new []) none =
          (walkPhase c dirs (Rope.new []) none).map (fun x =>
            (⟨if x.2.isSome then [d] ++ x.1.anchor else [], [d] ++ x.1.lead⟩,
             if x.2.isSome then x.2
             else if ((t.left.isSome && t.right.isSome) &&
               (c.left.isNone || c.right.isNone)) then some d else none)) := by
        rw [walkPhase_cons, ht, except_ok_bind]
        exact walk_shift dirs t c [d] [] _ hchild_t
      cases hwc : walkPhase c dirs (Rope.new []) none with
      | error e =>
        have hsafec : prune_or_increment_safe_impl c dirs = .error e := by
          rw [← por_pair_eq_safe dirs c, por_pair_def, hwc, except_err_bind]
        rw [por_pair_def, hw0, hwc, except_map_err, except_err_bind,
          safe_impl_cons_some t c d dirs hchild, hsafec, except_err_bind]
      | ok wc =>
        obtain ⟨wr, wpd⟩ := wc
        obtain ⟨wA, wL⟩ := wr
        obtain ⟨n, hn⟩ :=
          walkPhase_ok_lead dirs c (Rope.new []) none (⟨wA, wL⟩, wpd) hwc ⟨c, rfl⟩
        have hnL : c.nodeAt wL = some n := hn
        have hsz_c : c.size < t.size := SimpleTree.child_size_lt t c d hchild
        have hsz_n : n.size ≤ c.size := SimpleTree.nodeAt_size_le wL c n hnL
        have hnt : t.nodeAt ([d] ++ wL) = some n := by
          rw [SimpleTree.nodeAt_append, hchild_t]
          simpa using hnL
        obtain ⟨res, chain, t', h1, h2, h3⟩ :=
          descend_needs (t.size + 1) n t ([d] ++ wL) true hnt (by omega)
        obtain ⟨res2, chain2, c', h1c, h2c, h3c⟩ :=
          descend_needs (c.size + 1) n c wL true hnL (by omega)
        rw [h1] at h1c
        have hres : res = res2 := Except.ok.inj h1c
        subst hres
        obtain ⟨resT, resB⟩ := res
        have ht' : t' = t.setChild d c' := by
          have hrc := SimpleTree.replaceAt_cons t c c' resT d wL hchild h2c
          simp only [List.singleton_append] at h2
          rw [hrc] at h2
          exact (Option.some.inj h2).symm
        subst ht'
        have hw1 : walkPhase t (d :: dirs) (Rope.new []) none = .ok
            (⟨if wpd.isSome then [d] ++ wA else [], [d] ++ wL⟩,
             if wpd.isSome then wpd
             else if ((t.left.isSome && t.right.isSome) &&
               (c.left.isNone || c.right.isNone)) then some d else none) := by
          rw [hw0, hwc, except_map_ok]
        have hps := por_pair_walk_ok t (d :: dirs) _ _ _ hw1
        have hpsc := por_pair_walk_ok c dirs wA wL wpd hwc
        rw [hps, h3, except_ok_bind, safe_impl_cons_some t c d dirs hchild,
          ← por_pair_eq_safe dirs c, hpsc, h3c, except_ok_bind]
        cases resB with
        | false => rfl
        | true =>
          cases wpd with
          | some dir2 =>
            cases dir2 with
            | Left =>
              have hmodL : (t.setChild d c').modifyAt (d :: wA)
                  (fun m => m.setLeft none) =
                  (c'.modifyAt wA (fun m => m.setLeft none)).map
                    (fun c2 => (t.setChild d c').setChild d c2) :=
                SimpleTree.modifyAt_cons_some _ c' d wA _
                  (SimpleTree.child_setChild t d (some c'))
              simp only [Option.isSome_some, Bool.true_and, reduceIte,
                List.singleton_append]
              rw [hmodL]
              cases hm : c'.modifyAt wA (fun m => m.setLeft none) with
              | none => rfl
              | some c3 =>
                simp only [SimpleTree.setChild_setChild]
                rfl
            | Right =>
              have hmodR : (t.setChild d c').modifyAt (d :: wA)
                  (fun m => m.setRight none) =
                  (c'.modifyAt wA (fun m => m.setRight none)).map
                    (fun c2 => (t.setChild d c').setChild d c2) :=
                SimpleTree.modifyAt_cons_some _ c' d wA _
                  (SimpleTree.child_setChild t d (some c'))
              simp only [Option.isSome_some, Bool.true_and, reduceIte,
                List.singleton_append]
              rw [hmodR]
              cases hm : c'.modifyAt wA (fun m => m.setRight none) with
              | none => rfl
              | some c3 =>
                simp only [SimpleTree.setChild_setChild]
                rfl
          | none =>
            cases hcond : ((t.left.isSome && t.right.isSome) &&
                (c.left.isNone || c.right.isNone)) with
            | true =>
              have ht2c : (t.left.isSome && t.right.isSome) = true := by
                cases hx : (t.left.isSome && t.right.isSome) with
                | true => rfl
                | false =>
                  rw [hx] at hcond
                  simp at hcond
              rw [ht2c]
              cases d with
              | Left =>
                simp [getOrErr, SimpleTree.modifyAt, SimpleTree.setLeft_setChild_left,
                  except_map_ok, except_ok_bind]
              | Right =>
                simp [getOrErr, SimpleTree.modifyAt, SimpleTree.setRight_setChild_right,
                  except_map_ok, except_ok_bind]
            | false =>
              have hsafec : prune_or_increment_safe_impl c dirs = .ok (c', true) := by
                rw [← por_pair_eq_safe dirs c, hpsc, h3c, except_ok_bind]
                rfl
              have hcfalse : (c.left.isSome && c.right.isSome) = false :=
                safe_impl_true_children dirs c (c', true) hsafec rfl
              have hfew : (c.left.isNone || c.right.isNone) = true := by
                cases hl : c.left <;> cases hr : c.right <;> simp_all
              have ht2c : (t.left.isSome && t.right.isSome) = false := by
                rw [hfew] at hcond
                simpa using hcond
              rw [ht2c]
              rfl

theorem pathValid_nil (t : SimpleTree) : t.pathValid [] = true := rfl

theorem pathValid_cons (t : SimpleTree) (d : Direction) (ds : List Direction) :
    t.pathValid (d :: ds) =
      match t.child d with
      | none => false
      | some c => c.pathValid ds := rfl

/-- On a valid path the recursive formulation succeeds. -/
theorem safe_impl_ok :
    ∀ (ds : List Direction) (t : SimpleTree),
      t.pathValid ds = true → ∃ p, prune_or_increment_safe_impl t ds = .ok p
  | [], t, _ => by
    rw [safe_impl_nil]
    exact needs_prune_ok t
  | d :: ds, t, hv => by
    cases hchild : t.child d with
    | none =>
      rw [pathValid_cons, hchild] at hv
      exact absurd hv (by simp)
    | some c =>
      rw [pathValid_cons, hchild] at hv
      have hv2 : c.pathValid ds = true := hv
      obtain ⟨p, hp⟩ := safe_impl_ok ds c hv2
      rw [safe_impl_cons_some t c d ds hchild, hp, except_ok_bind]
      cases hp2 : p.2 with
      | false => exact ⟨_, rfl⟩
      | true =>
        cases hcc : (t.left.isSome && t.right.isSome) with
        | true =>
          cases d with
          | Left => exact ⟨_, rfl⟩
          | Right => exact ⟨_, rfl⟩
        | false => exact ⟨_, rfl⟩

/-- `prune_or_increment` after a successful walk, with the walk
result's anchor, lead and pending direction exposed. -/
theorem prune_or_increment_walk_ok (t : SimpleTree) (dirs : List Direction) (A L : Path)
    (PD : Option Direction)
    (hw : walkPhase t dirs (Rope.new []) none = .ok (⟨A, L⟩, PD)) :
    prune_or_increment t dirs =
      Except.bind (descendLoopFuel (t.size + 1) t L true) (fun dd =>
        match dd.2.2, PD with
        | true, some Direction.Left =>
          getOrErr (dd.1.modifyAt A (fun n => n.setLeft none)) .unwrapNone
        | true, some Direction.Right =>
          getOrErr (dd.1.modifyAt A (fun n => n.setRight none)) .unwrapNone
        | _, _ => .ok dd.1) := by
  rw [prune_or_increment_def, hw, except_ok_bind]
  rfl

/-- Every run of `prune_or_increment` either succeeds or fails with the
`unwrap`-style error: it never runs out of fuel and never reaches the
`panic!("unreachable")` arm of the descend loop. -/
theorem por_classify (t : SimpleTree) (dirs : List Direction) :
    (∃ t', prune_or_increment t dirs = .ok t') ∨
      prune_or_increment t dirs = .error .unwrapNone := by
  cases hw : walkPhase t dirs (Rope.new []) none with
  | error e =>
    right
    have he := walkPhase_err dirs t (Rope.new []) none e hw
    rw [prune_or_increment_def, hw, except_err_bind, he]
  | ok w =>
    obtain ⟨wr, wpd⟩ := w
    obtain ⟨wA, wL⟩ := wr
    obtain ⟨n, hn⟩ :=
      walkPhase_ok_lead dirs t (Rope.new []) none (⟨wA, wL⟩, wpd) hw ⟨t, rfl⟩
    have hnL : t.nodeAt wL = some n := hn
    have hs : n.size < t.size + 1 := by
      have := SimpleTree.nodeAt_size_le wL t n hnL
      omega
    obtain ⟨res, chain, t', h1, h2, h3⟩ := descend_needs (t.size + 1) n t wL true hnL hs
    obtain ⟨resT, resB⟩ := res
    rw [prune_or_increment_walk_ok t dirs wA wL wpd hw, h3, except_ok_bind]
    cases resB with
    | false => exact Or.inl ⟨t', rfl⟩
    | true =>
      cases wpd with
      | none => exact Or.inl ⟨t', rfl⟩
      | some dir2 =>
        cases dir2 with
        | Left =>
          cases hm : t'.modifyAt wA (fun m => m.setLeft none) with
          | none => exact Or.inr rfl
          | some t3 => exact Or.inl ⟨t3, rfl⟩
        | Right =>
          cases hm : t'.modifyAt wA (fun m => m.setRight none) with
          | none => exact Or.inr rfl
          | some t3 => exact Or.inl ⟨t3, rfl⟩

/-! ## C2: equivalence of the cursor-based and recursive algorithms -/

/-- C2: on any tree and any direction path along which each step's
child exists, the cursor-based `prune_or_increment` and the reference
recursive `prune_or_increment_safe` succeed and produce identical
resulting trees. -/
theorem prune_or_increment_equiv_safe (t : SimpleTree) (dirs : List Direction)
    (hv : t.pathValid dirs = true) :
    ∃ t', prune_or_increment t dirs = .ok t' ∧
      prune_or_increment_safe t dirs = .ok t' := by
  obtain ⟨p, hp⟩ := safe_impl_ok dirs t hv
  refine ⟨p.1, ?_, ?_⟩
  · rw [prune_or_increment_eq_pair, por_pair_eq_safe, hp, except_map_ok]
  · rw [prune_or_increment_safe, hp, except_map_ok]

/-- Witness for C2 at a concrete input: the example tree and path of
the repository's tests. -/
theorem prune_or_increment_equiv_safe_witness :
    ∃ t', prune_or_increment (create_tree_example false 5) directions_example = .ok t' ∧
      prune_or_increment_safe (create_tree_example false 5) directions_example = .ok t' :=
  prune_or_increment_equiv_safe (create_tree_example false 5) directions_example rfl

/-! ## C8: the impossible-child-configuration arms are unreachable -/

/-- C8: the `panic!("unreachable")` arm of `prune_or_increment`'s
descend loop and the `unreachable!()` arm of `needs_prune` are never
executed: every run of `prune_or_increment` either succeeds or fails
with the `unwrap` error of a missing child on the supplied path (never
with `Err.badArm`), and `needs_prune` always succeeds. -/
theorem panic_arms_unreachable :
    (∀ (t : SimpleTree) (dirs : List Direction),
      (∃ t', prune_or_increment t dirs = .ok t') ∨
        prune_or_increment t dirs = .error .unwrapNone) ∧
    (∀ n : SimpleTree, ∃ res, needs_prune n = .ok res) :=
  ⟨por_classify, needs_prune_ok⟩

/-! ## C10: termination -/

/-- C10: `prune_or_increment` terminates on every tree and every valid
path (it returns a result), and in particular its
descend-to-resolution loop finishes within any fuel bound exceeding
the size of the subtree at the lead position, because each iteration
through a single-child node moves the lead to a strict subtree. -/
theorem prune_or_increment_terminates :
    (∀ (t : SimpleTree) (dirs : List Direction), t.pathValid dirs = true →
      ∃ t', prune_or_increment t dirs = .ok t') ∧
    (∀ (fuel : Nat) (t n : SimpleTree) (p : Path) (prune : Bool),
      t.nodeAt p = some n → n.size < fuel →
      ∃ out, descendLoopFuel fuel t p prune = .ok out) := by
  constructor
  · intro t dirs hv
    obtain ⟨p, hp⟩ := safe_impl_ok dirs t hv
    refine ⟨p.1, ?_⟩
    rw [prune_or_increment_eq_pair, por_pair_eq_safe, hp, except_map_ok]
  · intro fuel t n p prune h hs
    exact descendLoop_ok fuel t n p prune h hs

/-- Witness for C10 at concrete inputs: the test tree and path, and a
single-node tree with just enough fuel. -/
theorem prune_or_increment_terminates_witness :
    (∃ t', prune_or_increment (create_tree_example true 5) directions_example = .ok t') ∧
    (∃ out, descendLoopFuel 2 (empty_tree 9) [] true = .ok out) :=
  ⟨prune_or_increment_terminates.1 (create_tree_example true 5) directions_example rfl,
   prune_or_increment_terminates.2 2 (empty_tree 9) (empty_tree 9) [] true rfl
     (by decide)⟩

end SelfBelay
